import Mathlib

/-!
Verification of the environ synchronization engine (Go sources: main.go,
cache.go, fs.go, local backend) against its specification.

Modelling conventions:
* file contents and keys are Lean `String`s (byte strings);
* the working tree is a partial map `Fs := String → Option String`;
* a ZIP archive is modelled by its entry list `Archive := List (String × String)`
  in entry order (the external `archive/zip` codec is not re-implemented;
  `archiveBytes` stands for the raw byte stream of the archive, a deterministic
  function of the entries);
* the remote blob store is a partial map `Store := String → Option Archive`
  with the write-once update of the FS backend (fs.go);
* remote and local I/O performed by an operation is recorded in an explicit
  call trace so that "zero remote calls" style properties are statable.
-/

/-- Whitespace test used by `strings.TrimSpace` (restricted to the ASCII
whitespace characters, which are the only ones relevant here). -/
def isSpace (c : Char) : Bool :=
  c = ' ' || c = '\t' || c = '\n' || c = '\x0b' || c = '\x0c' || c = '\r'

/-- Model of Go `strings.TrimSpace`: drop whitespace from both ends. -/
def trimSpace (s : String) : String :=
  ⟨((s.data.dropWhile isSpace).reverse.dropWhile isSpace).reverse⟩

/-- The base64url alphabet used by Go `encoding/base64.RawURLEncoding`. -/
def b64Alphabet : List Char :=
  "ABCDEFGHIJKLMNOPQRSTUVWXYZabcdefghijklmnopqrstuvwxyz0123456789-_".data

/-- Character for a 6-bit group. -/
def b64CharOf (i : Nat) : Char := b64Alphabet.getD i 'A'

/-- Unpadded base64url encoding of a byte sequence (Go
`base64.RawURLEncoding.EncodeToString`). -/
def b64EncodeChars : List Nat → List Char
  | [] => []
  | [b1] => [b64CharOf (b1 / 4), b64CharOf (b1 % 4 * 16)]
  | [b1, b2] =>
      [b64CharOf (b1 / 4), b64CharOf (b1 % 4 * 16 + b2 / 16), b64CharOf (b2 % 16 * 4)]
  | b1 :: b2 :: b3 :: rest =>
      b64CharOf (b1 / 4) :: b64CharOf (b1 % 4 * 16 + b2 / 16) ::
      b64CharOf (b2 % 16 * 4 + b3 / 64) :: b64CharOf (b3 % 64) :: b64EncodeChars rest

/-- String form of the unpadded base64url encoding. -/
def b64UrlEncode (bs : List Nat) : String := ⟨b64EncodeChars bs⟩

/-- Index of a character in the base64url alphabet, if any. -/
def b64IndexAux (c : Char) : List Char → Nat → Option Nat
  | [], _ => none
  | a :: as, i => if a = c then some i else b64IndexAux c as (i + 1)

/-- Decode table lookup for base64url. -/
def b64Index? (c : Char) : Option Nat := b64IndexAux c b64Alphabet 0

/-- Quantum assembly of Go's base64 decoder over an input already stripped of
the skipped characters (see `b64UrlDecode`): non-strict mode, so a trailing
partial quantum is accepted and its unused low bits are ignored; a remaining
length of 1 mod 4 is corrupt. -/
def b64DecodeChars : List Char → Option (List Nat)
  | [] => some []
  | [_] => none
  | [c1, c2] => do
      let v1 ← b64Index? c1
      let v2 ← b64Index? c2
      some [v1 * 4 + v2 / 16]
  | [c1, c2, c3] => do
      let v1 ← b64Index? c1
      let v2 ← b64Index? c2
      let v3 ← b64Index? c3
      some [v1 * 4 + v2 / 16, v2 % 16 * 16 + v3 / 4]
  | c1 :: c2 :: c3 :: c4 :: rest => do
      let v1 ← b64Index? c1
      let v2 ← b64Index? c2
      let v3 ← b64Index? c3
      let v4 ← b64Index? c4
      let tail ← b64DecodeChars rest
      some ((v1 * 4 + v2 / 16) :: (v2 % 16 * 16 + v3 / 4) :: (v3 % 4 * 64 + v4) :: tail)

/-- Newline and carriage return are silently skipped anywhere in the input by
Go's base64 decoder (`decodeQuantum` drops them without consuming a quantum
slot). -/
def isB64Skipped (c : Char) : Bool := c = '\n' || c = '\r'

/-- Model of Go `base64.RawURLEncoding.DecodeString`: skip every newline and
carriage return, then assemble 4-character quanta from the remaining input. -/
def b64UrlDecode (s : String) : Option (List Nat) :=
  b64DecodeChars (s.data.filter (fun c => !(isB64Skipped c)))

/-- SHA256 produces 32-byte hashes (main.go: `sha256HashSize`). -/
def sha256HashSize : Nat := 32

/-- A working tree: relative path → file contents (absent = no such file). -/
abbrev Fs : Type := String → Option String

/-- Write (create or overwrite) one file of a working tree. -/
def fsWrite (fs : Fs) (path content : String) : Fs :=
  fun p => if p = path then some content else fs p

/-- A ZIP archive, modelled by its ordered entry list (name, content). -/
abbrev Archive : Type := List (String × String)

/-- Raw bytes of the archive, standing for the serialized ZIP stream produced
by the external `archive/zip` writer: a deterministic function of the entry
list, never empty (a ZIP file always carries at least its end-of-central-
directory record, modelled by the leading `PK` magic bytes). -/
def archiveBytes (a : Archive) : List Nat :=
  80 :: 75 :: a.foldr
    (fun e acc => e.1.data.map Char.toNat ++ 0 :: e.2.data.map Char.toNat ++ 0 :: acc) []

/-- Model of `generateArchiveID` (main.go): base64url-encoded SHA-256 of the
raw archive bytes. SHA-256 itself is an external primitive (`crypto/sha256`);
the model keeps exactly the properties the program relies on: a deterministic
function of the archive bytes whose output is a nonempty string over the
base64url alphabet (in particular whitespace-free). -/
def generateArchiveID (a : Archive) : String := b64UrlEncode (archiveBytes a)

/-- The remote blob store seen by one environment: key → stored archive. -/
abbrev Store : Type := String → Option Archive

/-- An environment (main.go `Environ`): tracked files and ref-file path.  The
remote is supplied separately as a `Store` with FS-backend semantics. -/
structure Environ where
  Files : List String
  Ref : String

/-- A remote call issued by push or pull. -/
inductive RemoteCall
  | get : String → RemoteCall
  | write : String → Archive → RemoteCall
deriving DecidableEq

namespace FS

/-- Model of `FS.Write` (fs.go): create the key only if absent (`O_EXCL`); a
pre-existing key is treated as success and its stored content is untouched.
The modelled filesystem has no permission failures, so the call always
succeeds. -/
def Write (store : String → Option α) (key : String) (value : α) :
    (String → Option α) × Except Unit Unit :=
  match store key with
  | some _ => (store, .ok ())
  | none => (fun k => if k = key then some value else store k, .ok ())

/-- Model of `FS.Get` (fs.go): read the stored blob, error when absent. -/
def Get (store : String → Option α) (key : String) : Except Unit α :=
  match store key with
  | some v => .ok v
  | none => .error ()

end FS

namespace Local

/-- Model of `Local.Write` (local backend source): `os.WriteFile`, which
creates or unconditionally overwrites the key. -/
def Write (store : String → Option α) (key : String) (value : α) :
    (String → Option α) × Except Unit Unit :=
  (fun k => if k = key then some value else store k, .ok ())

/-- Model of `Local.Get` (local backend source): `os.ReadFile`. -/
def Get (store : String → Option α) (key : String) : Except Unit α :=
  match store key with
  | some v => .ok v
  | none => .error ()

end Local

/-- Entry construction loop of `getLocalZipData` (main.go): read each tracked
file in declared order; a missing tracked file is a fatal error naming it. -/
def buildEntries (fs : Fs) : List String → Except String Archive
  | [] => .ok []
  | f :: rest =>
    match fs f with
    | none => .error f
    | some content =>
      match buildEntries fs rest with
      | .error e => .error e
      | .ok entries => .ok ((f, content) :: entries)

/-- Model of `getLocalZipData` (main.go): ZIP of the tracked files of the
working tree, entries in declared file-list order. -/
def getLocalZipData (env : Environ) (fs : Fs) : Except String Archive :=
  buildEntries fs env.Files

/-- Errors surfaced by `push`. -/
inductive PushErr
  | trackedFileMissing (file : String)
deriving DecidableEq

/-- Outcome of one `push`: result, final working tree, final store, and the
trace of remote calls issued. -/
structure PushResult where
  result : Except PushErr Unit
  fs : Fs
  store : Store
  calls : List RemoteCall

/-- Upload path of `push` (main.go): `Remote.Write(archiveID, zipData)` on the
FS backend, then rewrite the ref file with the fingerprint. -/
def pushUpload (env : Environ) (fs : Fs) (store : Store) (zipData : Archive) :
    PushResult :=
  let archiveID := generateArchiveID zipData
  let store' := (FS.Write store archiveID zipData).1
  ⟨.ok (), fsWrite fs env.Ref archiveID, store', [.write archiveID zipData]⟩

/-- Model of `push` (main.go): build the archive, compute its fingerprint,
return immediately when the ref file's raw bytes already equal the
fingerprint, otherwise upload and rewrite the ref file. -/
def push (env : Environ) (fs : Fs) (store : Store) : PushResult :=
  match getLocalZipData env fs with
  | .error f => ⟨.error (.trackedFileMissing f), fs, store, []⟩
  | .ok zipData =>
    match fs env.Ref with
    | some currentRef =>
      if currentRef = generateArchiveID zipData then ⟨.ok (), fs, store, []⟩
      else pushUpload env fs store zipData
    | none => pushUpload env fs store zipData

/-- Errors surfaced by `pull` and `readRefFile`. -/
inductive PullErr
  | refRead (path : String)
  | refEmpty (path : String)
  | download (key : String)
  | missingFiles (files : List String)
  | extraneousFiles (files : List String)
deriving DecidableEq

/-- Outcome of one `pull`: result, final working tree, and the trace of remote
calls issued. -/
structure PullResult where
  result : Except PullErr Unit
  fs : Fs
  calls : List RemoteCall

/-- One step of the materialization loop of `pull` (main.go): compare the
archive entry with the on-disk file (`fileHasChanged`) and write it only when
absent or different. -/
def materializeEntry (fs : Fs) (e : String × String) : Fs :=
  if fs e.1 = some e.2 then fs else fsWrite fs e.1 e.2

/-- Materialization loop of `pull` over all archive entries, in entry order. -/
def materialize (fs : Fs) : Archive → Fs
  | [] => fs
  | e :: rest => materialize (materializeEntry fs e) rest

/-- Model of `pull` (main.go): read the ref file (error when absent, or when
its raw content is empty), trim it, fetch the archive, validate that the entry
set equals the declared file list (missing files first, then extraneous ones,
each reported as the complete list), then materialize changed files. -/
def pull (env : Environ) (fs : Fs) (store : Store) : PullResult :=
  match fs env.Ref with
  | none => ⟨.error (.refRead env.Ref), fs, []⟩
  | some refContent =>
    if refContent = "" then ⟨.error (.refEmpty env.Ref), fs, []⟩
    else
      match store (trimSpace refContent) with
      | none =>
        ⟨.error (.download (trimSpace refContent)), fs, [.get (trimSpace refContent)]⟩
      | some zipData =>
        if env.Files.filter (fun f => !((zipData.map Prod.fst).contains f)) = [] then
          if (zipData.map Prod.fst).filter (fun n => !(env.Files.contains n)) = [] then
            ⟨.ok (), materialize fs zipData, [.get (trimSpace refContent)]⟩
          else
            ⟨.error (.extraneousFiles
              ((zipData.map Prod.fst).filter (fun n => !(env.Files.contains n)))),
              fs, [.get (trimSpace refContent)]⟩
        else
          ⟨.error (.missingFiles
            (env.Files.filter (fun f => !((zipData.map Prod.fst).contains f)))),
            fs, [.get (trimSpace refContent)]⟩

/-- Model of `readRefFile` (main.go): read, trim, reject empty results. Used
by the diff path; note that `pull` has its own, weaker validation. -/
def readRefFile (fs : Fs) (path : String) : Except PullErr String :=
  match fs path with
  | none => .error (.refRead path)
  | some content =>
    let ref := trimSpace content
    if ref = "" then .error (.refEmpty path) else .ok ref

/-- Model of `isArchiveID` (main.go): the string decodes under unpadded
base64url to exactly `sha256HashSize` bytes. -/
def isArchiveID (s : String) : Bool :=
  match b64UrlDecode s with
  | some decoded => decoded.length = sha256HashSize
  | none => false

/-- The working-tree fresh copy used by the round-trip property: an otherwise
empty tree holding only the ref file produced by the push. -/
def freshTree (env : Environ) (zip : Archive) : Fs :=
  fsWrite (fun _ => none) env.Ref (generateArchiveID zip)

/-- A local or remote access performed by `getZipFromSource`. -/
inductive SourceCall
  | fileRead : String → SourceCall
  | remoteGet : String → SourceCall
deriving DecidableEq

/-- Model of `getZipFromSource` (main.go): a source string that is a valid
archive ID is used directly as the remote key; any other string is read as a
ref file whose trimmed content becomes the key.  The second component records
the file reads and remote gets performed. -/
def getZipFromSource (fs : Fs) (store : Store) (source : String) :
    Except PullErr (Archive × String) × List SourceCall :=
  if isArchiveID source then
    match store source with
    | some zipData => (.ok (zipData, source), [.remoteGet source])
    | none => (.error (.download source), [.remoteGet source])
  else
    match readRefFile fs source with
    | .error e => (.error e, [.fileRead source])
    | .ok ref =>
      match store ref with
      | some zipData => (.ok (zipData, ref), [.fileRead source, .remoteGet ref])
      | none => (.error (.download ref), [.fileRead source, .remoteGet ref])

/-- Boolean lexicographic order on character lists (Go `sort.Strings`). -/
def lexLe : List Char → List Char → Bool
  | [], _ => true
  | _ :: _, [] => false
  | a :: as, b :: bs => if a = b then lexLe as bs else decide (a < b)

/-- Insert into a list sorted by `lexLe` on the string data. -/
def insertSorted (x : String) : List String → List String
  | [] => [x]
  | y :: ys => if lexLe x.data y.data then x :: y :: ys else y :: insertSorted x ys

/-- Sort strings lexicographically (model of `sort.Strings` in `diffZips`). -/
def sortStrings (l : List String) : List String := l.foldr insertSorted []

/-- Name-to-content map built from a ZIP entry list the way `diffZips` builds
its Go maps: later entries with the same name overwrite earlier ones. -/
def mapOf (a : Archive) : String → Option String :=
  a.foldl (fun m e => fun n => if n = e.1 then some e.2 else m n) (fun _ => none)

/-- Model of `diffZips` (main.go), returning the list of printed chunks.  The
rendering of a unified diff for a file present on both sides with differing
bytes is delegated to `unidiff from to srcHeader dstHeader`, standing for the
external `patience.UnifiedDiffTextWithOptions` library call.  A file present
on exactly one side produces only the `!!! file ... only in ...` marker line:
the loop continues to the next name without printing the file's content. -/
def diffZips (unidiff : String → String → String → String → List String)
    (fromZip toZip : Archive) (fromLabel toLabel : String) : List String :=
  let fromFiles := mapOf fromZip
  let toFiles := mapOf toZip
  let allFiles := (fromZip.map Prod.fst ++ toZip.map Prod.fst).eraseDups
  let fileList := sortStrings allFiles
  fileList.flatMap (fun fileName =>
    match fromFiles fileName, toFiles fileName with
    | none, some _ => ["!!! file " ++ fileName ++ " only in " ++ toLabel ++ "\n"]
    | some _, none => ["!!! file " ++ fileName ++ " only in " ++ fromLabel ++ "\n"]
    | some fromContent, some toContent =>
      if fromContent = toContent then []
      else unidiff fromContent toContent
        (fileName ++ " (" ++ fromLabel ++ ")") (fileName ++ " (" ++ toLabel ++ ")")
    | none, none => [])

/-- A pre-authenticated remote backend as seen by the cache decorator
(cache.go): the outcome of one `Get` per key and one `Write` per key/value,
with `Unit` standing for the discarded Go error payloads.  Values have an
arbitrary type `α` (byte strings in Go). -/
structure RemoteFn (α : Type) where
  get : String → Except Unit α
  write : String → α → Except Unit Unit

/-- A call issued by the cache decorator to one of its two backends. -/
inductive CacheCall (α : Type)
  | byGet : String → CacheCall α
  | byWrite : String → α → CacheCall α
  | ofGet : String → CacheCall α
  | ofWrite : String → α → CacheCall α

/-- The cache decorator (cache.go): `By` is the cache, `Of` the origin. -/
structure Cache (α : Type) where
  By : RemoteFn α
  Of : RemoteFn α

/-- Model of `Cache.Get` (cache.go): try `By.Get`; on success return the
cached value.  Otherwise call `Of.Get`; on its success populate the cache via
`By.Write` and fail if that population write fails. -/
def Cache.Get (c : Cache α) (key : String) : Except Unit α × List (CacheCall α) :=
  match c.By.get key with
  | .ok cached => (.ok cached, [.byGet key])
  | .error _ =>
    match c.Of.get key with
    | .error e => (.error e, [.byGet key, .ofGet key])
    | .ok content =>
      match c.By.write key content with
      | .error e => (.error e, [.byGet key, .ofGet key, .byWrite key content])
      | .ok _ => (.ok content, [.byGet key, .ofGet key, .byWrite key content])

/-- Model of `Cache.Write` (cache.go): write the origin `Of` first; only on
its success write the cache `By`, whose result becomes the call's result. -/
def Cache.Write (c : Cache α) (key : String) (value : α) :
    Except Unit Unit × List (CacheCall α) :=
  match c.Of.write key value with
  | .error e => (.error e, [.ofWrite key value])
  | .ok _ => (c.By.write key value, [.ofWrite key value, .byWrite key value])

/-! ### Frame and string helper lemmas -/

theorem fsWrite_self (fs : Fs) (p v : String) : fsWrite fs p v p = some v := by
  simp [fsWrite]

theorem fsWrite_ne (fs : Fs) (p q v : String) (h : q ≠ p) : fsWrite fs p v q = fs q := by
  simp [fsWrite, h]

theorem str_data_append (a b : String) : (a ++ b).data = a.data ++ b.data := by
  cases a; cases b; rfl

theorem str_ne_empty_iff (s : String) : s ≠ "" ↔ s.data ≠ [] := by
  constructor
  · intro h hd
    apply h
    cases s
    simp_all
  · intro h hd
    subst hd
    exact h rfl

theorem dropWhile_eq_self_of_all (p : Char → Bool) (l : List Char)
    (h : ∀ c ∈ l, p c = false) : l.dropWhile p = l := by
  cases l with
  | nil => rfl
  | cons a t => simp [List.dropWhile_cons, h a (by simp)]

theorem dropWhile_append_all (p : Char → Bool) (l1 l2 : List Char)
    (h : ∀ c ∈ l1, p c = true) : (l1 ++ l2).dropWhile p = l2.dropWhile p := by
  induction l1 with
  | nil => rfl
  | cons a t ih =>
    simp [List.dropWhile_cons, h a (by simp), ih (fun c hc => h c (by simp [hc]))]

theorem trimSpace_of_no_space (s : String) (h : ∀ c ∈ s.data, isSpace c = false) :
    trimSpace s = s := by
  unfold trimSpace
  rw [dropWhile_eq_self_of_all _ _ h,
    dropWhile_eq_self_of_all _ _ (fun c hc => h c (List.mem_reverse.mp hc)),
    List.reverse_reverse]

theorem trimSpace_append_space (s w : String) (hs : s.data ≠ [])
    (hns : ∀ c ∈ s.data, isSpace c = false)
    (hw : ∀ c ∈ w.data, isSpace c = true) :
    trimSpace (s ++ w) = s := by
  unfold trimSpace
  rw [str_data_append]
  have h1 : (s.data ++ w.data).dropWhile isSpace = s.data ++ w.data := by
    cases hd : s.data with
    | nil => exact absurd hd hs
    | cons a t =>
      have ha : isSpace a = false := hns a (by rw [hd]; simp)
      simp [List.dropWhile_cons, ha]
  rw [h1, List.reverse_append,
    dropWhile_append_all _ _ _ (fun c hc => hw c (List.mem_reverse.mp hc)),
    dropWhile_eq_self_of_all _ _ (fun c hc => hns c (List.mem_reverse.mp hc)),
    List.reverse_reverse]

/-! ### Fingerprint lemmas -/

theorem b64Alphabet_not_space : ∀ c ∈ b64Alphabet, isSpace c = false := by decide

theorem b64CharOf_not_space (i : Nat) : isSpace (b64CharOf i) = false := by
  have hmem : b64CharOf i ∈ b64Alphabet ∨ b64CharOf i = 'A' := by
    unfold b64CharOf
    cases h : b64Alphabet[i]? with
    | none => right; simp [List.getD, h]
    | some c =>
      left
      have : b64Alphabet.getD i 'A' = c := by simp [List.getD, h]
      rw [this]
      exact List.getElem?_mem h
  rcases hmem with hm | hd
  · exact b64Alphabet_not_space _ hm
  · rw [hd]; decide

theorem b64EncodeChars_not_space :
    ∀ (bs : List Nat), ∀ c ∈ b64EncodeChars bs, isSpace c = false
  | [] => by simp [b64EncodeChars]
  | [b1] => by
    simp only [b64EncodeChars, List.mem_cons, List.not_mem_nil, or_false]
    rintro c (rfl | rfl) <;> exact b64CharOf_not_space _
  | [b1, b2] => by
    simp only [b64EncodeChars, List.mem_cons, List.not_mem_nil, or_false]
    rintro c (rfl | rfl | rfl) <;> exact b64CharOf_not_space _
  | b1 :: b2 :: b3 :: rest => by
    simp only [b64EncodeChars, List.mem_cons]
    rintro c (rfl | rfl | rfl | rfl | hc)
    · exact b64CharOf_not_space _
    · exact b64CharOf_not_space _
    · exact b64CharOf_not_space _
    · exact b64CharOf_not_space _
    · exact b64EncodeChars_not_space rest c hc

theorem b64EncodeChars_ne_nil (bs : List Nat) (h : bs ≠ []) : b64EncodeChars bs ≠ [] := by
  match bs with
  | [] => exact absurd rfl h
  | [b1] => simp [b64EncodeChars]
  | [b1, b2] => simp [b64EncodeChars]
  | b1 :: b2 :: b3 :: rest => simp [b64EncodeChars]

theorem archiveBytes_ne_nil (a : Archive) : archiveBytes a ≠ [] := by
  simp [archiveBytes]

theorem generateArchiveID_no_space (a : Archive) :
    ∀ c ∈ (generateArchiveID a).data, isSpace c = false := fun c hc =>
  b64EncodeChars_not_space (archiveBytes a) c hc

theorem generateArchiveID_data_ne_nil (a : Archive) :
    (generateArchiveID a).data ≠ [] :=
  b64EncodeChars_ne_nil _ (archiveBytes_ne_nil a)

theorem generateArchiveID_ne_empty (a : Archive) : generateArchiveID a ≠ "" :=
  (str_ne_empty_iff _).mpr (generateArchiveID_data_ne_nil a)

theorem trimSpace_generateArchiveID (a : Archive) :
    trimSpace (generateArchiveID a) = generateArchiveID a :=
  trimSpace_of_no_space _ (generateArchiveID_no_space a)

/-! ### Archive construction lemmas -/

theorem buildEntries_names (fs : Fs) (l : List String) (a : Archive)
    (h : buildEntries fs l = .ok a) : a.map Prod.fst = l := by
  induction l generalizing a with
  | nil =>
    simp only [buildEntries] at h
    injection h with h
    subst h
    rfl
  | cons f rest ih =>
    simp only [buildEntries] at h
    cases hf : fs f with
    | none => rw [hf] at h; exact absurd h (by simp)
    | some content =>
      rw [hf] at h
      cases hr : buildEntries fs rest with
      | error e => rw [hr] at h; exact absurd h (by simp)
      | ok entries =>
        rw [hr] at h
        injection h with h
        subst h
        simp [ih entries hr]

theorem buildEntries_sound (fs : Fs) (l : List String) (a : Archive)
    (h : buildEntries fs l = .ok a) : ∀ e ∈ a, fs e.1 = some e.2 := by
  induction l generalizing a with
  | nil =>
    simp only [buildEntries] at h
    injection h with h
    subst h
    simp
  | cons f rest ih =>
    simp only [buildEntries] at h
    cases hf : fs f with
    | none => rw [hf] at h; exact absurd h (by simp)
    | some content =>
      rw [hf] at h
      cases hr : buildEntries fs rest with
      | error e => rw [hr] at h; exact absurd h (by simp)
      | ok entries =>
        rw [hr] at h
        injection h with h
        subst h
        intro e he
        rcases List.mem_cons.mp he with rfl | he'
        · exact hf
        · exact ih entries hr e he'

theorem buildEntries_fsWrite (fs : Fs) (l : List String) (p v : String)
    (hp : p ∉ l) : buildEntries (fsWrite fs p v) l = buildEntries fs l := by
  induction l with
  | nil => rfl
  | cons f rest ih =>
    simp only [List.mem_cons, not_or] at hp
    obtain ⟨hp1, hp2⟩ := hp
    simp only [buildEntries]
    rw [fsWrite_ne fs p f v (Ne.symm hp1), ih hp2]

/-! ### Materialization lemma -/

theorem materializeEntry_self (fs : Fs) (e : String × String) :
    materializeEntry fs e e.1 = some e.2 := by
  unfold materializeEntry
  by_cases hc : fs e.1 = some e.2
  · simp [hc]
  · simp [hc, fsWrite_self]

theorem materializeEntry_ne (fs : Fs) (e : String × String) (p : String)
    (h : p ≠ e.1) : materializeEntry fs e p = fs p := by
  unfold materializeEntry
  by_cases hc : fs e.1 = some e.2
  · simp [hc]
  · simp [hc, fsWrite_ne _ _ _ _ h]

theorem materialize_spec (a : Archive) (g : String → String)
    (hg : ∀ e ∈ a, g e.1 = e.2) (fs : Fs) (p : String) :
    materialize fs a p = if p ∈ a.map Prod.fst then some (g p) else fs p := by
  induction a generalizing fs with
  | nil => simp [materialize]
  | cons e rest ih =>
    have hge : g e.1 = e.2 := hg e (by simp)
    have hgr : ∀ x ∈ rest, g x.1 = x.2 := fun x hx => hg x (by simp [hx])
    show materialize (materializeEntry fs e) rest p = _
    rw [ih hgr]
    by_cases hp : p ∈ rest.map Prod.fst
    · simp [hp]
    · by_cases hpe : p = e.1
      · subst hpe
        simp [hp, materializeEntry_self, hge]
      · simp [hp, hpe, materializeEntry_ne fs e p hpe]

/-! ### C1: push is idempotent -/

theorem push_on_uploaded (env : Environ) (fs : Fs) (store : Store) (zip : Archive)
    (href : env.Ref ∉ env.Files)
    (hbuild : getLocalZipData env fs = .ok zip) :
    push env (pushUpload env fs store zip).fs (pushUpload env fs store zip).store =
      ⟨.ok (), (pushUpload env fs store zip).fs, (pushUpload env fs store zip).store, []⟩ := by
  have hbuild' :
      getLocalZipData env (fsWrite fs env.Ref (generateArchiveID zip)) = .ok zip := by
    unfold getLocalZipData at hbuild ⊢
    rw [buildEntries_fsWrite fs env.Files env.Ref _ href]
    exact hbuild
  have hfs : (pushUpload env fs store zip).fs = fsWrite fs env.Ref (generateArchiveID zip) :=
    rfl
  have hst : (pushUpload env fs store zip).store =
      (FS.Write store (generateArchiveID zip) zip).1 := rfl
  rw [hfs, hst]
  simp [push, hbuild', fsWrite_self]

/-- C1: push is idempotent — when a push succeeds and the tracked files are
unchanged afterwards (the ref file is not itself tracked, so the first push's
ref rewrite does not change any tracked file), a second push issues zero
remote calls, returns success, and leaves the working tree (in particular the
ref file) and the store unchanged. -/
theorem push_idempotent (env : Environ) (fs : Fs) (store : Store)
    (href : env.Ref ∉ env.Files)
    (hok : (push env fs store).result = .ok ()) :
    push env (push env fs store).fs (push env fs store).store =
      ⟨.ok (), (push env fs store).fs, (push env fs store).store, []⟩ := by
  cases hbuild : getLocalZipData env fs with
  | error f =>
    exfalso
    simp [push, hbuild] at hok
  | ok zip =>
    cases href2 : fs env.Ref with
    | some c =>
      by_cases hc : c = generateArchiveID zip
      · have h1 : push env fs store = ⟨.ok (), fs, store, []⟩ := by
          simp [push, hbuild, href2, hc]
        rw [h1]
        simpa using h1
      · have h1 : push env fs store = pushUpload env fs store zip := by
          simp [push, hbuild, href2, hc]
        rw [h1]
        exact push_on_uploaded env fs store zip href hbuild
    | none =>
      have h1 : push env fs store = pushUpload env fs store zip := by
        simp [push, hbuild, href2]
      rw [h1]
      exact push_on_uploaded env fs store zip href hbuild

/-- Concrete environment for witnesses: one tracked file `a`, ref file `r`. -/
def envW1 : Environ := ⟨["a"], "r"⟩

/-- Concrete working tree for witnesses: `a` holds `"x"`, no ref file yet. -/
def fsW1 : Fs := fun p => if p = "a" then some "x" else none

/-- Concrete empty store for witnesses. -/
def storeW1 : Store := fun _ => none

theorem push_idempotent_witness :
    push envW1 (push envW1 fsW1 storeW1).fs (push envW1 fsW1 storeW1).store =
      ⟨.ok (), (push envW1 fsW1 storeW1).fs, (push envW1 fsW1 storeW1).store, []⟩ :=
  push_idempotent envW1 fsW1 storeW1 (by decide) (by rfl)

/-! ### C2: push/pull round trip -/

theorem pull_reduce (env : Environ) (fs : Fs) (store : Store) (c : String)
    (zip : Archive) (h : fs env.Ref = some c) (hc : c ≠ "")
    (hs : store (trimSpace c) = some zip) :
    pull env fs store =
      if env.Files.filter (fun f => !((zip.map Prod.fst).contains f)) = [] then
        if (zip.map Prod.fst).filter (fun n => !(env.Files.contains n)) = [] then
          ⟨.ok (), materialize fs zip, [.get (trimSpace c)]⟩
        else
          ⟨.error (.extraneousFiles
            ((zip.map Prod.fst).filter (fun n => !(env.Files.contains n)))),
            fs, [.get (trimSpace c)]⟩
      else
        ⟨.error (.missingFiles
          (env.Files.filter (fun f => !((zip.map Prod.fst).contains f)))),
          fs, [.get (trimSpace c)]⟩ := by
  simp only [pull, h]
  rw [if_neg hc, hs]

theorem push_ok (env : Environ) (fs : Fs) (store : Store) (zip : Archive)
    (hbuild : getLocalZipData env fs = .ok zip) :
    (push env fs store).result = .ok () := by
  cases href2 : fs env.Ref with
  | some c =>
    by_cases hc : c = generateArchiveID zip <;>
      simp [push, pushUpload, hbuild, href2, hc]
  | none => simp [push, pushUpload, hbuild, href2]

theorem push_store_id (env : Environ) (fs : Fs) (store : Store) (zip : Archive)
    (hbuild : getLocalZipData env fs = .ok zip)
    (hstore : store (generateArchiveID zip) = some zip ∨
      (store (generateArchiveID zip) = none ∧
        fs env.Ref ≠ some (generateArchiveID zip))) :
    (push env fs store).store (generateArchiveID zip) = some zip := by
  have hupload : (pushUpload env fs store zip).store (generateArchiveID zip) = some zip := by
    show (FS.Write store (generateArchiveID zip) zip).1 (generateArchiveID zip) = some zip
    cases hs : store (generateArchiveID zip) with
    | some old =>
      rcases hstore with h | ⟨h, _⟩
      · simp [FS.Write, hs]
        rw [hs] at h
        injection h
      · rw [hs] at h
        exact absurd h (by simp)
    | none => simp [FS.Write, hs]
  cases href2 : fs env.Ref with
  | some c =>
    by_cases hc : c = generateArchiveID zip
    · subst hc
      rcases hstore with h | ⟨_, h2⟩
      · simpa [push, hbuild, href2] using h
      · exact absurd href2 h2
    · simpa [push, hbuild, href2, hc] using hupload
  | none => simpa [push, hbuild, href2] using hupload

/-- C2: push/pull round trip — after a successful push of arbitrary tracked
file contents, a pull into a fresh working tree holding only the pushed ref
file succeeds and reproduces byte-identical contents at exactly the declared
relative paths (every tracked path gets back its pushed content; every other
path stays absent).  The store hypothesis is the content-addressing invariant
the program relies on: the fingerprint's key either is still free or already
holds the identical archive (in the former case the ref file cannot already
name that fingerprint, since it was never pushed). -/
theorem push_pull_round_trip (env : Environ) (fs : Fs) (store : Store) (zip : Archive)
    (hbuild : getLocalZipData env fs = .ok zip)
    (hstore : store (generateArchiveID zip) = some zip ∨
      (store (generateArchiveID zip) = none ∧
        fs env.Ref ≠ some (generateArchiveID zip))) :
    (push env fs store).result = .ok () ∧
    (pull env (freshTree env zip) (push env fs store).store).result = .ok () ∧
    (∀ f ∈ env.Files,
      (pull env (freshTree env zip) (push env fs store).store).fs f = fs f) ∧
    (∀ p, p ∉ env.Files → p ≠ env.Ref →
      (pull env (freshTree env zip) (push env fs store).store).fs p = none) := by
  have hrefread : freshTree env zip env.Ref = some (generateArchiveID zip) :=
    fsWrite_self _ _ _
  have hne : ¬(generateArchiveID zip = "") := generateArchiveID_ne_empty zip
  have hnames : zip.map Prod.fst = env.Files := buildEntries_names fs env.Files zip hbuild
  have hsound : ∀ e ∈ zip, fs e.1 = some e.2 := buildEntries_sound fs env.Files zip hbuild
  have hsid : (push env fs store).store (generateArchiveID zip) = some zip :=
    push_store_id env fs store zip hbuild hstore
  have hmiss : List.filter (fun f => !(List.map Prod.fst zip).contains f) env.Files = [] :=
    List.filter_eq_nil_iff.mpr (fun f hf => by rw [hnames]; simp [hf])
  have hext : List.filter (fun n => !env.Files.contains n) (List.map Prod.fst zip) = [] :=
    List.filter_eq_nil_iff.mpr (fun n hn => by rw [hnames] at hn; simp [hn])
  have hpull : pull env (freshTree env zip) (push env fs store).store =
      ⟨.ok (), materialize (freshTree env zip) zip, [.get (generateArchiveID zip)]⟩ := by
    rw [pull_reduce env (freshTree env zip) (push env fs store).store
        (generateArchiveID zip) zip hrefread hne
        (by rw [trimSpace_generateArchiveID]; exact hsid),
      if_pos hmiss, if_pos hext, trimSpace_generateArchiveID]
  have hmat : ∀ p, materialize (freshTree env zip) zip p =
      if p ∈ zip.map Prod.fst then some ((fs p).getD "") else freshTree env zip p := by
    intro p
    exact materialize_spec zip (fun n => (fs n).getD "")
      (fun e he => by simp [hsound e he]) (freshTree env zip) p
  refine ⟨push_ok env fs store zip hbuild, by rw [hpull], ?_, ?_⟩
  · intro f hf
    rw [hpull]
    show materialize (freshTree env zip) zip f = fs f
    rw [hmat f, if_pos (by rw [hnames]; exact hf)]
    rcases hex : fs f with _ | c
    · exfalso
      have hf2 : f ∈ zip.map Prod.fst := by rw [hnames]; exact hf
      rcases List.mem_map.mp hf2 with ⟨e, he, hef⟩
      have := hsound e he
      rw [hef] at this
      rw [hex] at this
      exact absurd this (by simp)
    · simp [hex]
  · intro p hp hpr
    rw [hpull]
    show materialize (freshTree env zip) zip p = none
    rw [hmat p, if_neg (by rw [hnames]; exact hp)]
    show fsWrite (fun _ => none) env.Ref (generateArchiveID zip) p = none
    rw [fsWrite_ne _ _ _ _ hpr]

/-- Concrete store already holding the pushed archive, for the witness. -/
def fsW2 : Fs := fun p => if p = "a" then some "x" else none

theorem push_pull_round_trip_witness :
    (pull envW1 (freshTree envW1 [("a", "x")])
      (push envW1 fsW2 storeW1).store).fs "a" = some "x" := by
  have h := push_pull_round_trip envW1 fsW2 storeW1 [("a", "x")] (by rfl)
    (Or.inr ⟨rfl, by rw [show fsW2 envW1.Ref = none from rfl]; simp⟩)
  have h2 := h.2.2.1 "a" (by decide)
  rw [h2]
  rfl

/-! ### C3: pull aborts wholesale on structural mismatch -/

/-- C3: when the archive's entry set does not exactly equal the declared file
list, pull fails before materializing anything: the working tree is returned
unchanged and the error carries the complete list of missing declared files
(checked first), or else the complete list of extraneous archive entries. -/
theorem pull_structural_mismatch (env : Environ) (fs : Fs) (store : Store)
    (refContent : String) (zip : Archive)
    (h1 : fs env.Ref = some refContent) (h2 : refContent ≠ "")
    (h3 : store (trimSpace refContent) = some zip)
    (hmm : ¬((∀ f ∈ env.Files, f ∈ zip.map Prod.fst) ∧
      (∀ n ∈ zip.map Prod.fst, n ∈ env.Files))) :
    (pull env fs store).fs = fs ∧
    (((pull env fs store).result =
        .error (.missingFiles
          (env.Files.filter (fun f => !((zip.map Prod.fst).contains f)))) ∧
      env.Files.filter (fun f => !((zip.map Prod.fst).contains f)) ≠ []) ∨
     ((pull env fs store).result =
        .error (.extraneousFiles
          ((zip.map Prod.fst).filter (fun n => !(env.Files.contains n)))) ∧
      (zip.map Prod.fst).filter (fun n => !(env.Files.contains n)) ≠ [])) := by
  by_cases hm : List.filter (fun f => !((List.map Prod.fst zip).contains f)) env.Files = []
  · have hall : ∀ f ∈ env.Files, f ∈ zip.map Prod.fst := by
      intro f hf
      have hno := List.filter_eq_nil_iff.mp hm f hf
      simpa using hno
    have hxn : ∃ n ∈ zip.map Prod.fst, n ∉ env.Files := by
      by_contra hno
      push_neg at hno
      exact hmm ⟨hall, hno⟩
    obtain ⟨n, hn1, hn2⟩ := hxn
    have hxe : (zip.map Prod.fst).filter (fun n => !(env.Files.contains n)) ≠ [] := by
      intro h0
      have hno := List.filter_eq_nil_iff.mp h0 n hn1
      apply hno
      simp [hn2]
    have hpull : pull env fs store =
        ⟨.error (.extraneousFiles
          ((zip.map Prod.fst).filter (fun n => !(env.Files.contains n)))),
          fs, [.get (trimSpace refContent)]⟩ := by
      rw [pull_reduce env fs store refContent zip h1 h2 h3, if_pos hm, if_neg hxe]
    exact ⟨by rw [hpull], Or.inr ⟨by rw [hpull], hxe⟩⟩
  · have hpull : pull env fs store =
        ⟨.error (.missingFiles
          (env.Files.filter (fun f => !((zip.map Prod.fst).contains f)))),
          fs, [.get (trimSpace refContent)]⟩ := by
      rw [pull_reduce env fs store refContent zip h1 h2 h3, if_neg hm]
    exact ⟨by rw [hpull], Or.inl ⟨by rw [hpull], hm⟩⟩

/-- Concrete tree for the C3 witness: only the ref file `r` naming key `K`. -/
def fsW3 : Fs := fun p => if p = "r" then some "K" else none

/-- Concrete store for the C3 witness: key `K` holds an archive with entry
`a` only, while the environment declares files `a` and `b`. -/
def storeW3 : Store := fun k => if k = "K" then some [("a", "x")] else none

theorem pull_structural_mismatch_witness :
    (pull ⟨["a", "b"], "r"⟩ fsW3 storeW3).result =
      .error (.missingFiles ["b"]) ∧
    (pull ⟨["a", "b"], "r"⟩ fsW3 storeW3).fs = fsW3 := by
  have h := pull_structural_mismatch ⟨["a", "b"], "r"⟩ fsW3 storeW3 "K" [("a", "x")]
    rfl (by decide) rfl (by decide)
  refine ⟨?_, h.1⟩
  rcases h.2 with ⟨he, _⟩ | ⟨_, hne⟩
  · rw [he]
    rfl
  · exact absurd (by decide) hne

/-! ### C8: pull's ref-file guard checks raw emptiness, not trimmed -/

/-- C8 counterexample: a ref file containing only a newline has empty trimmed
content, yet pull proceeds past its guard (which tests the raw bytes) and
issues `Remote.Get` with the empty key — contrary to the claim that no
`Remote.Get` is issued whenever the trimmed content is empty. -/
theorem pull_whitespace_ref_contacts_remote :
    trimSpace "\n" = "" ∧
    (pull ⟨["a"], "r"⟩ (fun p => if p = "r" then some "\n" else none)
      (fun _ => none)).calls = [RemoteCall.get ""] := by
  constructor
  · decide
  · decide

/-- C8 (amended): pull fails before contacting the remote when the ref file
is absent or its raw (untrimmed) content is empty — no remote call and no
working-tree write in those two cases.  A nonempty but whitespace-only ref
file, however, passes the raw emptiness check, and pull then issues
`Remote.Get` with the empty trimmed key. -/
theorem pull_ref_guard (env : Environ) (fs : Fs) (store : Store) :
    (fs env.Ref = none →
      pull env fs store = ⟨.error (.refRead env.Ref), fs, []⟩) ∧
    (fs env.Ref = some "" →
      pull env fs store = ⟨.error (.refEmpty env.Ref), fs, []⟩) ∧
    (∀ c, fs env.Ref = some c → c ≠ "" → trimSpace c = "" →
      (pull env fs store).calls = [.get ""]) := by
  refine ⟨fun h => by simp [pull, h], fun h => by simp [pull, h],
    fun c h hc ht => ?_⟩
  simp only [pull, h]
  rw [if_neg hc, ht]
  cases hs : store "" with
  | none => rfl
  | some zipData => split <;> (try split) <;> (try split) <;> rfl

theorem pull_ref_guard_witness :
    pull ⟨["a"], "rW"⟩ (fun _ => none) (fun _ => none) =
      ⟨.error (.refRead "rW"), (fun _ => none), []⟩ :=
  (pull_ref_guard ⟨["a"], "rW"⟩ (fun _ => none) (fun _ => none)).1 rfl

/-! ### C9: push compares the ref file untrimmed -/

/-- C9: push's up-to-date check compares the ref file's raw bytes against the
fingerprint.  A ref file holding the current fingerprint followed by trailing
whitespace is not treated as up to date: push issues the `Remote.Write`,
succeeds, and rewrites the ref file to the bare fingerprint — even though
`readRefFile` (used by the diff path, and mirrored by pull's trimming)
accepts that same ref file and yields the fingerprint after trimming. -/
theorem push_untrimmed_ref_compare (env : Environ) (fs : Fs) (store : Store)
    (zip : Archive) (ws : String)
    (hbuild : getLocalZipData env fs = .ok zip)
    (hws1 : ws ≠ "") (hws2 : ∀ c ∈ ws.data, isSpace c = true)
    (href : fs env.Ref = some (generateArchiveID zip ++ ws)) :
    (push env fs store).calls = [.write (generateArchiveID zip) zip] ∧
    (push env fs store).result = .ok () ∧
    (push env fs store).fs env.Ref = some (generateArchiveID zip) ∧
    readRefFile fs env.Ref = .ok (generateArchiveID zip) := by
  have hneq : generateArchiveID zip ++ ws ≠ generateArchiveID zip := by
    intro h
    have hd := congrArg String.data h
    rw [str_data_append] at hd
    have hlen := congrArg List.length hd
    rw [List.length_append] at hlen
    have hz : ws.data.length = 0 := by omega
    exact (str_ne_empty_iff ws).mp hws1 (List.length_eq_zero.mp hz)
  have htrim : trimSpace (generateArchiveID zip ++ ws) = generateArchiveID zip :=
    trimSpace_append_space _ _ (generateArchiveID_data_ne_nil zip)
      (generateArchiveID_no_space zip) hws2
  have hpush : push env fs store = pushUpload env fs store zip := by
    simp [push, hbuild, href, hneq]
  refine ⟨by rw [hpush]; rfl, by rw [hpush]; rfl,
    by rw [hpush]; exact fsWrite_self _ _ _, ?_⟩
  simp only [readRefFile, href, htrim]
  rw [if_neg (generateArchiveID_ne_empty zip)]

/-- Concrete tree for the C9 witness: tracked file `a`, ref file holding the
current fingerprint plus a trailing newline. -/
def fsW9 : Fs := fun p =>
  if p = "a" then some "x"
  else if p = "r" then some (generateArchiveID [("a", "x")] ++ "\n") else none

theorem push_untrimmed_ref_compare_witness :
    (push envW1 fsW9 storeW1).calls =
      [RemoteCall.write (generateArchiveID [("a", "x")]) [("a", "x")]] ∧
    readRefFile fsW9 "r" = .ok (generateArchiveID [("a", "x")]) := by
  have h := push_untrimmed_ref_compare envW1 fsW9 storeW1 [("a", "x")] "\n"
    (by rfl) (by decide) (by decide) (by rfl)
  exact ⟨h.1, h.2.2.2⟩

/-! ### C10: diff source resolution is syntactic (corrected) -/

/-- The claim's phrase "a valid unpadded base64url encoding of exactly 32
bytes", stated from its words for the C10 correction: the string is the
encoder's output on some 32-byte value.  This is strictly narrower than what
`isArchiveID` accepts, because the decoder skips newlines and carriage
returns that no encoder output ever contains. -/
def isCanonicalArchiveID (s : String) : Prop :=
  ∃ bs : List Nat, bs.length = 32 ∧ b64UrlEncode bs = s

/-- A 43-character fingerprint followed by a newline: not the encoding of any
32-byte value, yet accepted by Go's newline-skipping decoder. -/
def srcNL : String := "AAAAAAAAAAAAAAAAAAAAAAAAAAAAAAAAAAAAAAAAAAA\n"

/-- A working tree holding a ref file at the path `srcNL` itself. -/
def fsNL : Fs := fun p => if p = srcNL then some "K" else none

/-- C10 counterexample: the source string `srcNL` is not a valid unpadded
base64url encoding of exactly 32 bytes (no encoder output contains a
newline), so the claim requires it to be read as a ref file; but the decoder
behind `isArchiveID` skips the newline and accepts it, and `getZipFromSource`
then uses the string directly as the remote archive key — its only access is
that remote get, and it never reads the ref file existing at that very
path. -/
theorem archive_id_with_newline_used_as_key :
    ¬ isCanonicalArchiveID srcNL ∧
    isArchiveID srcNL = true ∧
    (getZipFromSource fsNL (fun _ => none) srcNL).2 =
      [SourceCall.remoteGet srcNL] := by
  refine ⟨?_, by decide, by decide⟩
  rintro ⟨bs, _, henc⟩
  have hmem : '\n' ∈ (b64UrlEncode bs).data := by
    rw [henc]
    decide
  exact absurd (b64EncodeChars_not_space bs '\n' hmem) (by decide)

theorem readRefFile_ok (fs : Fs) (path r : String)
    (h : readRefFile fs path = .ok r) :
    ∃ c, fs path = some c ∧ r = trimSpace c := by
  cases hf : fs path with
  | none =>
    simp only [readRefFile, hf] at h
    exact absurd h (by simp)
  | some content =>
    simp only [readRefFile, hf] at h
    by_cases hc : trimSpace content = ""
    · rw [if_pos hc] at h
      exact absurd h (by simp)
    · rw [if_neg hc] at h
      injection h with h
      exact ⟨content, rfl, h.symm⟩

/-- C10 (amended): `getZipFromSource` resolves a source string syntactically,
without probing, but the archive-ID class is the one Go's decoder accepts: a
string that `base64.RawURLEncoding.DecodeString` — which silently skips every
newline and carriage return in its input — decodes to exactly 32 bytes is
used directly as the remote archive key (the only access is the remote get
with that exact key, and the resolved archive ID is the source itself); any
string outside this class is read as a ref file, every remote get performed
uses the trimmed content of that file as its key, and the resolved archive
ID also comes from the file, never from the source string itself. -/
theorem diff_source_resolution (fs : Fs) (store : Store) (source : String) :
    (isArchiveID source = true →
      (getZipFromSource fs store source).2 = [SourceCall.remoteGet source] ∧
      ∀ a i, (getZipFromSource fs store source).1 = .ok (a, i) → i = source) ∧
    (isArchiveID source = false →
      SourceCall.fileRead source ∈ (getZipFromSource fs store source).2 ∧
      (∀ k, SourceCall.remoteGet k ∈ (getZipFromSource fs store source).2 →
        ∃ c, fs source = some c ∧ k = trimSpace c) ∧
      (∀ a i, (getZipFromSource fs store source).1 = .ok (a, i) →
        ∃ c, fs source = some c ∧ i = trimSpace c)) := by
  constructor
  · intro h
    cases hs : store source with
    | some zipData =>
      refine ⟨by simp [getZipFromSource, h, hs], fun a i hok => ?_⟩
      simp [getZipFromSource, h, hs] at hok
      exact hok.2.symm
    | none =>
      refine ⟨by simp [getZipFromSource, h, hs], fun a i hok => ?_⟩
      simp [getZipFromSource, h, hs] at hok
  · intro h
    cases hr : readRefFile fs source with
    | error e =>
      refine ⟨by simp [getZipFromSource, h, hr], fun k hk => ?_, fun a i hok => ?_⟩
      · simp [getZipFromSource, h, hr] at hk
      · simp [getZipFromSource, h, hr] at hok
    | ok ref =>
      obtain ⟨c, hc1, hc2⟩ := readRefFile_ok fs source ref hr
      cases hs : store ref with
      | some zipData =>
        refine ⟨by simp [getZipFromSource, h, hr, hs], fun k hk => ?_,
          fun a i hok => ?_⟩
        · simp [getZipFromSource, h, hr, hs] at hk
          exact ⟨c, hc1, hk ▸ hc2⟩
        · simp [getZipFromSource, h, hr, hs] at hok
          exact ⟨c, hc1, hok.2 ▸ hc2⟩
      | none =>
        refine ⟨by simp [getZipFromSource, h, hr, hs], fun k hk => ?_,
          fun a i hok => ?_⟩
        · simp [getZipFromSource, h, hr, hs] at hk
          exact ⟨c, hc1, hk ▸ hc2⟩
        · simp [getZipFromSource, h, hr, hs] at hok

theorem diff_source_resolution_witness :
    (getZipFromSource (fun _ => none) (fun _ => none)
      "AAAAAAAAAAAAAAAAAAAAAAAAAAAAAAAAAAAAAAAAAAA").2 =
      [SourceCall.remoteGet "AAAAAAAAAAAAAAAAAAAAAAAAAAAAAAAAAAAAAAAAAAA"] ∧
    SourceCall.fileRead "r" ∈ (getZipFromSource fsW3 (fun _ => none) "r").2 :=
  ⟨((diff_source_resolution (fun _ => none) (fun _ => none) _).1 (by decide)).1,
    ((diff_source_resolution fsW3 (fun _ => none) "r").2 (by decide)).1⟩

/-! ### C4: cache read-through -/

/-- C4: `Cache.Get` is read-through — a cache hit (`By.Get` success) returns
the cached value and the only backend access is that one cache read, so the
origin is never contacted; on a cache miss with an origin hit, the origin's
content is written back to the cache, the call returns that content when the
population write succeeds, and fails when the population write fails even
though the origin returned the content. -/
theorem cache_get_read_through {α : Type} (c : Cache α) (key : String) :
    (∀ v, c.By.get key = .ok v →
      Cache.Get c key = (.ok v, [.byGet key])) ∧
    (c.By.get key = .error () → ∀ content, c.Of.get key = .ok content →
      CacheCall.byWrite key content ∈ (Cache.Get c key).2 ∧
      (c.By.write key content = .ok () → (Cache.Get c key).1 = .ok content) ∧
      (c.By.write key content = .error () → (Cache.Get c key).1 = .error ())) := by
  constructor
  · intro v hv
    simp [Cache.Get, hv]
  · intro hby content hof
    cases hw : c.By.write key content with
    | ok u =>
      cases u
      refine ⟨by simp [Cache.Get, hby, hof, hw], fun _ => by simp [Cache.Get, hby, hof, hw],
        fun hcontra => ?_⟩
      exact absurd hcontra (by simp)
    | error e =>
      cases e
      refine ⟨by simp [Cache.Get, hby, hof, hw], fun hcontra => ?_,
        fun _ => by simp [Cache.Get, hby, hof, hw]⟩
      exact absurd hcontra (by simp)

/-- Concrete cache whose `By` store hits on every key, for the C4 witness. -/
def cacheHitW : Cache String :=
  ⟨⟨fun _ => .ok "v", fun _ _ => .ok ()⟩, ⟨fun _ => .error (), fun _ _ => .ok ()⟩⟩

theorem cache_get_read_through_witness :
    Cache.Get cacheHitW "k" = (.ok "v", [CacheCall.byGet "k"]) :=
  (cache_get_read_through cacheHitW "k").1 "v" rfl

/-! ### C5: cache write-through ordering -/

/-- C5: `Cache.Write` writes the origin first (the first backend access is
always `Of.Write`); the cache `By` is written only when the origin write
succeeded; and either write's failure propagates as the call's result (an
origin failure short-circuits, otherwise the call's result is exactly the
cache write's result). -/
theorem cache_write_through {α : Type} (c : Cache α) (key : String) (value : α) :
    (Cache.Write c key value).2.head? = some (.ofWrite key value) ∧
    (c.Of.write key value = .error () →
      (Cache.Write c key value).2 = [.ofWrite key value] ∧
      (Cache.Write c key value).1 = .error ()) ∧
    (c.Of.write key value = .ok () →
      (Cache.Write c key value).2 = [.ofWrite key value, .byWrite key value] ∧
      (Cache.Write c key value).1 = c.By.write key value) := by
  cases hw : c.Of.write key value with
  | ok u =>
    cases u
    refine ⟨by simp [Cache.Write, hw], fun hcontra => ?_,
      fun _ => by simp [Cache.Write, hw]⟩
    exact absurd hcontra (by simp)
  | error e =>
    cases e
    refine ⟨by simp [Cache.Write, hw], fun _ => by simp [Cache.Write, hw],
      fun hcontra => ?_⟩
    exact absurd hcontra (by simp)

/-- Concrete cache with an always-succeeding origin, for the C5 witness. -/
def cacheWTW : Cache String :=
  ⟨⟨fun _ => .error (), fun _ _ => .ok ()⟩, ⟨fun _ => .error (), fun _ _ => .ok ()⟩⟩

theorem cache_write_through_witness :
    (Cache.Write cacheWTW "k" "v").2 =
      [CacheCall.ofWrite "k" "v", CacheCall.byWrite "k" "v"] :=
  ((cache_write_through cacheWTW "k" "v").2.2 rfl).1

/-! ### C6: write-once across backend variants (corrected) -/

/-- C6 counterexample: the Local backend's `Write` reports success on a
pre-existing key but does not leave the stored content unchanged — with key
`k` previously holding `"old"`, writing `"new"` succeeds and the store then
holds `"new"`, not the previous `"old"`. -/
theorem local_write_overwrites :
    (Local.Write (fun q => if q = "k" then some "old" else none) "k" "new").2 =
      .ok () ∧
    (Local.Write (fun q => if q = "k" then some "old" else none) "k" "new").1 "k" =
      some "new" ∧
    some "new" ≠ some "old" :=
  ⟨rfl, rfl, by decide⟩

/-- C6 (amended): write-once holds on the FS backend — writing any
pre-existing key reports success and leaves the whole store (in particular
that key's content) unchanged.  The Local backend's `Write` also reports
success, but replaces the stored bytes with the new value, so the previous
content survives only when the new bytes equal the old ones (which
content-addressed usage guarantees). -/
theorem write_once_fs_not_local {α : Type} (store : String → Option α)
    (key : String) (v old : α) (h : store key = some old) :
    (FS.Write store key v).2 = .ok () ∧
    (FS.Write store key v).1 = store ∧
    (Local.Write store key v).2 = .ok () ∧
    (Local.Write store key v).1 key = some v := by
  refine ⟨by simp [FS.Write, h], by simp [FS.Write, h], rfl, by simp [Local.Write]⟩

theorem write_once_fs_not_local_witness :
    (FS.Write (fun q => if q = "k" then some "old" else none) "k" "new").1 =
      (fun q => if q = "k" then some "old" else none) ∧
    (Local.Write (fun q => if q = "k" then some "old" else none) "k" "new").1 "k" =
      some "new" := by
  have h := write_once_fs_not_local (fun q => if q = "k" then some "old" else none)
    "k" "new" "old" rfl
  exact ⟨h.2.1, h.2.2.2⟩

/-! ### C7: diff renderer output for one-sided entries -/

/-- C7 (evaluation at the failing input): for an archive pair where the file
exists only on the `to` side, `diffZips` prints exactly the
`!!! file ... only in ...` marker and nothing else — no `+`-prefixed content
hunk is emitted, whatever the external unified-diff renderer would produce.
This contradicts the specification and the repository's own tests
(`TestDiffZipsPrintsContentForAddedFile` and
`TestDiffZipsPrintsContentForDeletedFile` in main_test.go), which require the
full content as `+`/`-` lines in addition to the marker. -/
theorem diffZips_one_sided_marker_only
    (unidiff : String → String → String → String → List String) :
    diffZips unidiff [] [("jaiminho/browse_agent/.env.sandbox", "FOO=bar\nBAZ=qux\n")]
      "QlgiIViuR" "rXtcTkVBF" =
      ["!!! file jaiminho/browse_agent/.env.sandbox only in rXtcTkVBF\n"] ∧
    diffZips unidiff [("jaiminho/browse_agent/.env.prod", "SECRET=value\n")] []
      "QlgiIViuR" "rXtcTkVBF" =
      ["!!! file jaiminho/browse_agent/.env.prod only in QlgiIViuR\n"] :=
  ⟨rfl, rfl⟩
